import Mathlib

/-!
Verification of the plugin manager in `src/plugo/services/plugin_manager.py`
(function `load_plugins`).  The Python function is shallowly embedded below:

* the enabled/disabled policy construction from the parsed configuration
  (lines 86-92) and the environment override (lines 95-103);
* the catalog (`plugin_info`) construction from the plugin directory
  (lines 109-179), with the filesystem modelled by a list of `RawPlugin`
  records describing what discovery would observe for each directory entry;
* the depth-first dependency resolution (`visit`, lines 186-212, and the
  seeding loop, lines 214-226), written with an explicit fuel parameter so
  that the recursion is structural; `RRes.out` marks fuel exhaustion, which
  never occurs in a real run (the Python recursion always terminates because
  `temp_marks` only ever receives catalog names and is checked first);
* the activation loop (lines 229-250), with the dynamic import and the call
  of `init_plugin` — external effects — abstracted by a function
  `String → ActOutcome` giving each plugin's activation outcome;
* the final return value `loaded_plugins = set(loading_order)` (lines 253,
  277).

The early returns for a missing plugin directory, a missing configuration
file and unparseable configuration JSON (lines 60-79), the logger setup and
the pip requirement installation (lines 119-148) are outside the modelled
fragment: the embedding starts from a parsed configuration and a discovery
result, which is what those lines produce.
-/

namespace Plugo

/-- A catalog entry: the information `plugin_info[name]` carries that the
resolution algorithm reads (line 173-179 of the source).  The `path`,
`metadata`, `is_loaded` and `module` fields play no role in resolution and
the two mutable ones are captured by the activation trace instead. -/
structure PluginDesc where
  dependencies : List String
  deriving DecidableEq

/-- What discovery observes for one entry of the plugin directory
(lines 111-171): whether the entry is a directory, whether `metadata.json`
and `plugin.py` exist, whether the metadata JSON parses, whether its
`dependencies` field is a list (a missing field defaults to the empty list,
line 168, and counts as a list), and the dependency list itself. -/
structure RawPlugin where
  name : String
  isDir : Bool
  hasMetadata : Bool
  hasPluginPy : Bool
  metadataParses : Bool
  depsFieldIsList : Bool
  dependencies : List String
  deriving DecidableEq

/-- Lookup in the catalog, modelling `plugin_info.get(name)` (line 194).
Directory listings contain pairwise distinct names, so association-list
lookup agrees with the Python dict. -/
def lookupDesc : List (String × PluginDesc) → String → Option PluginDesc
  | [], _ => Option.none
  | p :: ps, n => if p.1 = n then Option.some p.2 else lookupDesc ps n

/-- Python `set.add`: insert a name if it is not already present.  The list
order is one enumeration of the set; all theorems below depend only on
membership. -/
def setAdd (s : List String) (x : String) : List String :=
  if x ∈ s then s else s ++ [x]

/-- One configuration entry (lines 87-92): an enabled entry adds its name to
the enabled set, a disabled one adds it to the disabled set. -/
def policyStep (p : List String × List String) (e : String × Bool) :
    List String × List String :=
  if e.2 then (setAdd p.1 e.1, p.2) else (p.1, setAdd p.2 e.1)

/-- Lines 86-92: walk the configuration entries in file order and place each
name into the enabled or the disabled set according to its `enabled` flag.
Nothing is ever removed, so a name listed with both flags ends up in both
sets. -/
def processConfig (cfg : List (String × Bool)) : List String × List String :=
  cfg.foldl policyStep ([], [])

/-- Lines 95-103: the `ENABLED_PLUGINS` override, given as the parsed name
list (comma splitting and whitespace stripping are string munging outside
the modelled fragment).  Every override name is added to the enabled set and
removed from the disabled set.  When the environment variable is empty the
Python skips the update; the parsed list is then empty and the formula below
is the identity on memberships, so the guard needs no separate branch. -/
def applyEnv (en dis : List String) (env : List String) :
    List String × List String :=
  (env.foldl setAdd en, dis.filter (fun x => x ∉ env))

/-- The policy the resolution phase works with: configuration entries
followed by the environment override. -/
def configPolicy (cfg : List (String × Bool)) (env : List String) :
    List String × List String :=
  applyEnv (processConfig cfg).1 (processConfig cfg).2 env

/-- Lines 111-179: build `plugin_info` from the directory listing.  An entry
that is not a directory is skipped (line 114); one missing `metadata.json`
or `plugin.py` is skipped (line 152); unparseable metadata is skipped
(line 162); a non-list `dependencies` field is skipped (line 169).  The
surviving entries form the catalog. -/
def buildCatalog : List RawPlugin → List (String × PluginDesc)
  | [] => []
  | p :: ps =>
    if !p.isDir then buildCatalog ps
    else if !p.hasMetadata || !p.hasPluginPy then buildCatalog ps
    else if !p.metadataParses then buildCatalog ps
    else if !p.depsFieldIsList then buildCatalog ps
    else (p.name, PluginDesc.mk p.dependencies) :: buildCatalog ps

/-- `all_plugins_in_directory` (lines 110-117): every directory entry,
including ones whose descriptors are later rejected. -/
def allInDirectory (ps : List RawPlugin) : List String :=
  (ps.filter (fun p => p.isDir)).map (fun p => p.name)

/-- The mutable resolution state of lines 182-184: the `visited` dict keys,
the `temp_marks` dict keys (most recent first) and `loading_order`. -/
structure RState where
  visited : List String
  temp : List String
  order : List String
  deriving DecidableEq

/-- The three resolution failures raised inside `visit` (lines 189, 197,
205); the Python raises a bare `Exception` whose message distinguishes the
cases. -/
inductive RErr where
  | circular (n : String)
  | unknown (n : String)
  | disabled (n : String)
  deriving DecidableEq

/-- Result of a resolution step: fuel ran out (an artifact of the model,
never reached by a real run), an error was raised, or a new state was
produced. -/
inductive RRes where
  | out
  | err (e : RErr)
  | ok (s : RState)
  deriving DecidableEq

/-- The two recursion shapes of `visit`: visiting one name, and the
`for dep in plugin["dependencies"]` loop (line 208). -/
inductive VTask where
  | one (n : String)
  | many (ds : List String)

/-- The names a task is responsible for visiting. -/
def VTask.targets : VTask → List String
  | VTask.one n => [n]
  | VTask.many ds => ds

/-- Lines 186-212, the recursive `visit`, with a fuel parameter making the
recursion structural.  Check order follows the source: the `temp_marks`
cycle check (line 187), the `visited` check (line 192), pushing the
temporary mark (line 193), catalog lookup (lines 194-199), the disabled
check (lines 200-207), the dependency loop (lines 208-209), and finally
marking visited, popping the mark and appending to the order
(lines 210-212). -/
def visitAux (cat : List (String × PluginDesc)) (dis : List String) :
    Nat → VTask → RState → RRes
  | 0, _, _ => RRes.out
  | Nat.succ fuel, VTask.one n, s =>
    if n ∈ s.temp then RRes.err (RErr.circular n)
    else if n ∈ s.visited then RRes.ok s
    else
      match lookupDesc cat n with
      | Option.none => RRes.err (RErr.unknown n)
      | Option.some d =>
        if n ∈ dis then RRes.err (RErr.disabled n)
        else
          match visitAux cat dis fuel (VTask.many d.dependencies)
              (RState.mk s.visited (n :: s.temp) s.order) with
          | RRes.out => RRes.out
          | RRes.err e => RRes.err e
          | RRes.ok s1 =>
            RRes.ok (RState.mk (n :: s1.visited) (s1.temp.erase n)
              (s1.order ++ [n]))
  | Nat.succ _, VTask.many [], s => RRes.ok s
  | Nat.succ fuel, VTask.many (d :: ds), s =>
    match visitAux cat dis fuel (VTask.one d) s with
    | RRes.out => RRes.out
    | RRes.err e => RRes.err e
    | RRes.ok s1 => visitAux cat dis fuel (VTask.many ds) s1

/-- Lines 214-226: seed the traversal from every explicitly enabled name.
A name with no catalog entry is skipped with an error log (lines 217-221);
an already visited name is skipped (line 222); any exception raised by
`visit` aborts resolution (lines 224-226). -/
def resolveLoop (cat : List (String × PluginDesc)) (dis : List String)
    (fuel : Nat) : List String → RState → RRes
  | [], s => RRes.ok s
  | e :: es, s =>
    if (lookupDesc cat e).isNone then resolveLoop cat dis fuel es s
    else if e ∈ s.visited then resolveLoop cat dis fuel es s
    else
      match visitAux cat dis fuel (VTask.one e) s with
      | RRes.out => RRes.out
      | RRes.err er => RRes.err er
      | RRes.ok s1 => resolveLoop cat dis fuel es s1

/-- Outcome of attempting to activate one plugin (lines 234-250): the
module import succeeds and `init_plugin` returns (`ok`, line 242 sets
`is_loaded`), the import raises (`importError`), `init_plugin` raises
(`initError`), or
the module has no `init_plugin` attribute (`noInit`, warning on line 246).
Only `ok` sets `is_loaded = True`. -/
inductive ActOutcome where
  | ok
  | importError
  | initError
  | noInit
  deriving DecidableEq

/-- Lines 229-250, the activation loop: every name of the loading order is
attempted in sequence inside its own try/except, and the names whose outcome
is `ok` receive `is_loaded = True`.  Returns the attempted names in loop
order together with the `is_loaded = True` names in loop order. -/
def runActivation (act : String → ActOutcome) :
    List String → List String × List String
  | [] => ([], [])
  | n :: ns =>
    let rest := runActivation act ns
    (n :: rest.1,
      if act n = ActOutcome.ok then n :: rest.2 else rest.2)

/-- Observable outcome of `load_plugins`: fuel exhaustion of the model
(`out`, never reached by a real run), the Python function returning `None`
after a resolution failure with no activation attempted (`failed`), or a
completed run (`done ret attempted flags`) where `ret` is the returned
`loaded_plugins = set(loading_order)` (line 253, returned on line 277),
`attempted` records every plugin the activation loop processed, and `flags`
records the plugins whose `is_loaded` became `True`. -/
inductive LPRes where
  | out
  | failed
  | done (ret : List String) (attempted : List String) (flags : List String)
  deriving DecidableEq

/-- The modelled fragment of `load_plugins` (lines 82-277): build the
policy, build the catalog, resolve, and on success run the activation loop
and return `set(loading_order)`; on a resolution error return `None`
(line 226) without attempting any activation. -/
def load_plugins (cfg : List (String × Bool)) (env : List String)
    (dir : List RawPlugin) (act : String → ActOutcome) (fuel : Nat) :
    LPRes :=
  match resolveLoop (buildCatalog dir) (configPolicy cfg env).2 fuel
      (configPolicy cfg env).1 (RState.mk [] [] []) with
  | RRes.out => LPRes.out
  | RRes.err _ => LPRes.failed
  | RRes.ok s =>
    LPRes.done s.order (runActivation act s.order).1
      (runActivation act s.order).2

/-- Reachability along declared dependency edges: `Reaches cat n m` holds
when `m` is `n` itself or can be reached from `n` by following dependency
declarations of catalog entries. -/
inductive Reaches (cat : List (String × PluginDesc)) : String → String → Prop
  | refl (n : String) : Reaches cat n n
  | step {n m : String} {d : PluginDesc} (dep : String)
      (hd : lookupDesc cat n = Option.some d) (hm : dep ∈ d.dependencies)
      (ht : Reaches cat dep m) : Reaches cat n m

/-- Reachability using at least one dependency edge; `ReachesP cat n n`
states that `n` lies on a dependency cycle. -/
def ReachesP (cat : List (String × PluginDesc)) (n m : String) : Prop :=
  ∃ d dep, lookupDesc cat n = Option.some d ∧ dep ∈ d.dependencies ∧
    Reaches cat dep m

/-! ## Elementary lemmas about the policy construction -/

theorem mem_setAdd {s : List String} {x m : String} :
    m ∈ setAdd s x ↔ m ∈ s ∨ m = x := by
  unfold setAdd
  by_cases h : x ∈ s
  · simp only [if_pos h]
    constructor
    · exact Or.inl
    · rintro (hm | rfl)
      · exact hm
      · exact h
  · simp [if_neg h]

theorem mem_foldl_setAdd (l : List String) :
    ∀ (s : List String) (m : String), m ∈ l.foldl setAdd s ↔ m ∈ s ∨ m ∈ l := by
  induction l with
  | nil => intro s m; simp
  | cons x xs ih =>
    intro s m
    simp only [List.foldl_cons, ih, mem_setAdd, List.mem_cons]
    tauto

theorem processConfig_fold (cfg : List (String × Bool)) :
    ∀ (acc : List String × List String) (n : String),
      (n ∈ (cfg.foldl policyStep acc).1 ↔ n ∈ acc.1 ∨ (n, true) ∈ cfg) ∧
      (n ∈ (cfg.foldl policyStep acc).2 ↔ n ∈ acc.2 ∨ (n, false) ∈ cfg) := by
  induction cfg with
  | nil => intro acc n; simp
  | cons x xs ih =>
    intro acc n
    obtain ⟨x1, x2⟩ := x
    cases x2
    · have hs : xs.foldl policyStep (policyStep acc (x1, false)) =
          xs.foldl policyStep (acc.1, setAdd acc.2 x1) := by
        simp [policyStep]
      constructor
      · rw [List.foldl_cons, hs, (ih _ n).1]
        simp only [List.mem_cons, Prod.mk.injEq]
        tauto
      · rw [List.foldl_cons, hs, (ih _ n).2]
        simp only [mem_setAdd, List.mem_cons, Prod.mk.injEq]
        tauto
    · have hs : xs.foldl policyStep (policyStep acc (x1, true)) =
          xs.foldl policyStep (setAdd acc.1 x1, acc.2) := by
        simp [policyStep]
      constructor
      · rw [List.foldl_cons, hs, (ih _ n).1]
        simp only [mem_setAdd, List.mem_cons, Prod.mk.injEq]
        tauto
      · rw [List.foldl_cons, hs, (ih _ n).2]
        simp only [List.mem_cons, Prod.mk.injEq]
        tauto

theorem processConfig_mem (cfg : List (String × Bool)) (n : String) :
    (n ∈ (processConfig cfg).1 ↔ (n, true) ∈ cfg) ∧
    (n ∈ (processConfig cfg).2 ↔ (n, false) ∈ cfg) := by
  have h := processConfig_fold cfg ([], []) n
  simpa [processConfig] using h

theorem applyEnv_mem_override {en dis env : List String} {n : String}
    (h : n ∈ env) :
    n ∈ (applyEnv en dis env).1 ∧ n ∉ (applyEnv en dis env).2 := by
  constructor
  · exact (mem_foldl_setAdd env en n).2 (Or.inr h)
  · intro hc
    have := (List.mem_filter.mp hc).2
    simp only [decide_eq_true_eq] at this
    exact this h

/-! ## Elementary lemmas about reachability -/

theorem Reaches.snoc {cat : List (String × PluginDesc)} {a b dep : String}
    {d : PluginDesc} (h : Reaches cat a b)
    (hb : lookupDesc cat b = Option.some d) (hdep : dep ∈ d.dependencies) :
    Reaches cat a dep := by
  induction h with
  | refl n => exact Reaches.step dep hb hdep (Reaches.refl dep)
  | step dep0 hd hm _ ih => exact Reaches.step dep0 hd hm (ih hb)

/-! ## The resolution invariant

`Inv` collects the facts that hold of the mutable resolution state at every
point where `visit` can be entered: the `visited` keys and the entries of
`loading_order` are the same names, the order has no duplicates, every
ordered plugin has a catalog entry, is not disabled, and all its declared
dependencies occur strictly earlier in the order. -/

/-- Every plugin of the order has all its dependencies at strictly earlier
positions: the dependencies of the element at position `i` belong to the
first `i` elements. -/
def DepsClosed (cat : List (String × PluginDesc)) (order : List String) :
    Prop :=
  ∀ (i : Fin order.length) (d : PluginDesc),
    lookupDesc cat (order.get i) = Option.some d →
    ∀ dep ∈ d.dependencies, dep ∈ order.take i

structure Inv (cat : List (String × PluginDesc)) (dis : List String)
    (s : RState) : Prop where
  memEquiv : ∀ m, m ∈ s.visited ↔ m ∈ s.order
  nodup : s.order.Nodup
  closed : DepsClosed cat s.order
  inCat : ∀ m ∈ s.order, (lookupDesc cat m).isSome
  notDis : ∀ m ∈ s.order, m ∉ dis

theorem Inv.initial (cat : List (String × PluginDesc)) (dis : List String) :
    Inv cat dis (RState.mk [] [] []) := by
  refine ⟨?_, List.nodup_nil, ?_, ?_, ?_⟩
  · intro m; simp
  · intro i; exact absurd i.isLt (by simp)
  · intro m hm; simp at hm
  · intro m hm; simp at hm

theorem take_append_of_le {l1 l2 : List String} {i : Nat}
    (h : i ≤ l1.length) : (l1 ++ l2).take i = l1.take i := by
  rw [List.take_append_eq_append_take]
  have h0 : i - l1.length = 0 := Nat.sub_eq_zero_of_le h
  simp [h0]

theorem indexOf_lt_of_mem_take :
    ∀ (l : List String) (k : Nat) (a : String), a ∈ l.take k →
      l.indexOf a < k := by
  intro l
  induction l with
  | nil => intro k a ha; simp at ha
  | cons x xs ih =>
    intro k a ha
    cases k with
    | zero => simp at ha
    | succ k =>
      simp only [List.take_succ_cons, List.mem_cons] at ha
      by_cases hx : a = x
      · subst hx
        rw [List.indexOf_cons_self]
        exact Nat.succ_pos k
      · have ha2 : a ∈ xs.take k := by
          rcases ha with h | h
          · exact absurd h hx
          · exact h
        rw [List.indexOf_cons_ne _ (fun he => hx he.symm)]
        exact Nat.succ_lt_succ (ih k a ha2)

/-- A dependency edge between two ordered plugins goes strictly backwards in
the order. -/
theorem DepsClosed.edge {cat : List (String × PluginDesc)}
    {order : List String} {a dep : String} {d : PluginDesc}
    (hc : DepsClosed cat order) (ha : a ∈ order)
    (hl : lookupDesc cat a = Option.some d) (hdep : dep ∈ d.dependencies) :
    dep ∈ order ∧ order.indexOf dep < order.indexOf a := by
  have hlt : order.indexOf a < order.length := List.indexOf_lt_length.mpr ha
  have hget : order.get ⟨order.indexOf a, hlt⟩ = a := List.indexOf_get hlt
  have htake : dep ∈ order.take (order.indexOf a) := by
    have := hc ⟨order.indexOf a, hlt⟩ d (by rw [hget]; exact hl) dep hdep
    exact this
  exact ⟨List.take_subset _ _ htake, indexOf_lt_of_mem_take _ _ _ htake⟩

/-- Along a reachability path between ordered plugins the position can only
decrease. -/
theorem reaches_index_le {cat : List (String × PluginDesc)}
    {order : List String} {a b : String}
    (hc : DepsClosed cat order) (h : Reaches cat a b) (ha : a ∈ order) :
    b ∈ order ∧ order.indexOf b ≤ order.indexOf a := by
  induction h with
  | refl n => exact ⟨ha, le_refl _⟩
  | step dep hd hm _ ih =>
    have he := DepsClosed.edge hc ha hd hm
    have hb := ih he.1
    exact ⟨hb.1, le_trans hb.2 (le_of_lt he.2)⟩

/-- No plugin of a dependency-closed duplicate-free order lies on a
dependency cycle. -/
theorem no_cycle_in_order {cat : List (String × PluginDesc)}
    {order : List String} {c : String}
    (hc : DepsClosed cat order) (hcyc : ReachesP cat c c) (hmem : c ∈ order) :
    False := by
  obtain ⟨d, dep, hl, hdep, hr⟩ := hcyc
  have he := DepsClosed.edge hc hmem hl hdep
  have hm := reaches_index_le hc hr he.1
  exact absurd (lt_of_le_of_lt hm.2 he.2) (lt_irrefl _)

/-- Appending a plugin whose dependencies are already in the order preserves
positional dependency correctness. -/
theorem DepsClosed.append_last {cat : List (String × PluginDesc)}
    {order : List String} {n : String}
    (hc : DepsClosed cat order)
    (hn : ∀ d, lookupDesc cat n = Option.some d →
      ∀ dep ∈ d.dependencies, dep ∈ order) :
    DepsClosed cat (order ++ [n]) := by
  intro i d hl dep hdep
  have hlen : (order ++ [n]).length = order.length + 1 := by simp
  by_cases hi : (i : Nat) < order.length
  · have hget : (order ++ [n]).get i = order.get ⟨i, hi⟩ := by
      rw [List.get_eq_getElem, List.get_eq_getElem]
      exact List.getElem_append_left hi
    rw [hget] at hl
    have := hc ⟨i, hi⟩ d hl dep hdep
    rw [take_append_of_le (le_of_lt hi)]
    exact this
  · have hi2 : (i : Nat) = order.length := by
      have h4 : (i : Nat) < order.length + 1 := by
        have h5 := i.isLt
        simpa using h5
      omega
    have hget : (order ++ [n]).get i = n := by
      rw [List.get_eq_getElem]
      exact List.getElem_concat_length _ _ _ hi2 _
    rw [hget] at hl
    have hmem := hn d hl dep hdep
    rw [hi2, take_append_of_le (le_refl _), List.take_length]
    exact hmem

/-! ## Postconditions of the depth-first traversal -/

/-- What a successfully completed task guarantees: the temporary marks are
restored, the order only grows at its end, visited names persist, every
target of the task ends up visited, every newly visited name is reachable
from some target, no temporarily marked name becomes visited, and the state
invariant is preserved. -/
structure TaskOk (cat : List (String × PluginDesc)) (dis : List String)
    (t : VTask) (s s1 : RState) : Prop where
  tempEq : s1.temp = s.temp
  orderExt : ∃ l, s1.order = s.order ++ l
  visMono : ∀ m ∈ s.visited, m ∈ s1.visited
  targVis : ∀ x ∈ t.targets, x ∈ s1.visited
  newReach : ∀ m ∈ s1.visited,
    m ∈ s.visited ∨ ∃ x ∈ t.targets, Reaches cat x m
  tempFrozen : ∀ m ∈ s.temp, m ∈ s1.visited → m ∈ s.visited
  inv : Inv cat dis s → Inv cat dis s1

/-- The call-stack shape of the temporary marks: every temporarily marked
name has a dependency path of length at least one to every target of the
task about to run. -/
def TempChain (cat : List (String × PluginDesc)) (t : VTask)
    (temp : List String) : Prop :=
  ∀ x ∈ temp, ∀ y ∈ t.targets, ReachesP cat x y

/-- Provenance of a raised resolution error: an unknown name and a disabled
name are reachable from a target and really are absent respectively
disabled, and (under the call-stack invariant) the name of a circular error
lies on a genuine dependency cycle. -/
def ErrPost (cat : List (String × PluginDesc)) (dis : List String)
    (t : VTask) (s : RState) (e : RErr) : Prop :=
  (∀ m, e = RErr.unknown m →
    (∃ x ∈ t.targets, Reaches cat x m) ∧ lookupDesc cat m = Option.none) ∧
  (∀ m, e = RErr.disabled m →
    (∃ x ∈ t.targets, Reaches cat x m) ∧ m ∈ dis) ∧
  (∀ m, e = RErr.circular m → TempChain cat t s.temp → ReachesP cat m m)

theorem visitAux_post (cat : List (String × PluginDesc)) (dis : List String) :
    ∀ (fuel : Nat) (t : VTask) (s : RState),
      (∀ s1, visitAux cat dis fuel t s = RRes.ok s1 →
        TaskOk cat dis t s s1) ∧
      (∀ e, visitAux cat dis fuel t s = RRes.err e →
        ErrPost cat dis t s e) := by
  intro fuel
  induction fuel with
  | zero =>
    intro t s
    constructor
    · intro s1 h; simp [visitAux] at h
    · intro e h; simp [visitAux] at h
  | succ fuel ih =>
    intro t s
    match t with
    | VTask.one n =>
      constructor
      · intro s1 h
        simp only [visitAux] at h
        split at h
        · simp at h
        · rename_i h1
          split at h
          · rename_i h2
            cases h
            exact { tempEq := rfl, orderExt := ⟨[], by simp⟩,
                    visMono := fun m hm => hm,
                    targVis := by
                      intro x hx
                      simp only [VTask.targets, List.mem_singleton] at hx
                      subst hx; exact h2,
                    newReach := fun m hm => Or.inl hm,
                    tempFrozen := fun m _ hm => hm,
                    inv := fun hI => hI }
          · rename_i h2
            split at h
            · simp at h
            · rename_i d hlook
              split at h
              · simp at h
              · rename_i h3
                split at h
                · simp at h
                · simp at h
                · rename_i s2 hrec
                  cases h
                  have H := (ih (VTask.many d.dependencies)
                    (RState.mk s.visited (n :: s.temp) s.order)).1 s2 hrec
                  have hn2 : n ∉ s2.visited := by
                    intro hc
                    exact h2 (H.tempFrozen n (List.mem_cons_self n s.temp) hc)
                  refine { tempEq := ?_, orderExt := ?_, visMono := ?_,
                           targVis := ?_, newReach := ?_, tempFrozen := ?_,
                           inv := ?_ }
                  · show s2.temp.erase n = s.temp
                    rw [H.tempEq]
                    exact List.erase_cons_head n s.temp
                  · obtain ⟨l, hl⟩ := H.orderExt
                    exact ⟨l ++ [n], by
                      show s2.order ++ [n] = s.order ++ (l ++ [n])
                      rw [hl, List.append_assoc]⟩
                  · intro m hm
                    exact List.mem_cons_of_mem n (H.visMono m hm)
                  · intro x hx
                    simp only [VTask.targets, List.mem_singleton] at hx
                    subst hx
                    exact List.mem_cons_self x s2.visited
                  · intro m hm
                    rcases List.mem_cons.mp hm with hm | hm
                    · subst hm
                      exact Or.inr ⟨m, by simp [VTask.targets],
                        Reaches.refl m⟩
                    · rcases H.newReach m hm with hm2 | ⟨x, hx, hr⟩
                      · exact Or.inl hm2
                      · exact Or.inr ⟨n, by simp [VTask.targets],
                          Reaches.step x hlook hx hr⟩
                  · intro m hmt hm
                    rcases List.mem_cons.mp hm with hm | hm
                    · subst hm; exact absurd hmt h1
                    · exact H.tempFrozen m (List.mem_cons_of_mem n hmt) hm
                  · intro hI
                    have hI0 : Inv cat dis
                        (RState.mk s.visited (n :: s.temp) s.order) :=
                      ⟨hI.memEquiv, hI.nodup, hI.closed, hI.inCat, hI.notDis⟩
                    have hI2 := H.inv hI0
                    have hnord : n ∉ s2.order :=
                      fun hc => hn2 ((hI2.memEquiv n).mpr hc)
                    refine ⟨?_, ?_, ?_, ?_, ?_⟩
                    · intro m
                      show m ∈ n :: s2.visited ↔ m ∈ s2.order ++ [n]
                      simp only [List.mem_cons, List.mem_append,
                        List.mem_singleton, hI2.memEquiv m]
                      tauto
                    · show (s2.order ++ [n]).Nodup
                      refine List.nodup_append.mpr
                        ⟨hI2.nodup, List.nodup_singleton n, ?_⟩
                      intro a ha hb
                      simp only [List.mem_singleton] at hb
                      subst hb
                      exact hnord ha
                    · show DepsClosed cat (s2.order ++ [n])
                      refine DepsClosed.append_last hI2.closed ?_
                      intro d0 hd0 dep hdep
                      rw [hlook] at hd0
                      cases hd0
                      exact (hI2.memEquiv dep).mp
                        (H.targVis dep (by simpa [VTask.targets] using hdep))
                    · intro m hm
                      rcases List.mem_append.mp hm with hm | hm
                      · exact hI2.inCat m hm
                      · simp only [List.mem_singleton] at hm
                        subst hm
                        simp [hlook]
                    · intro m hm
                      rcases List.mem_append.mp hm with hm | hm
                      · exact hI2.notDis m hm
                      · simp only [List.mem_singleton] at hm
                        subst hm
                        exact h3
      · intro e h
        simp only [visitAux] at h
        split at h
        · rename_i h1
          cases h
          refine ⟨?_, ?_, ?_⟩
          · intro m hm; simp at hm
          · intro m hm; simp at hm
          · intro m hm hchain
            have hmn : m = n := by
              simpa using hm.symm
            subst hmn
            exact hchain m h1 m (by simp [VTask.targets])
        · rename_i h1
          split at h
          · simp at h
          · rename_i h2
            split at h
            · rename_i hlook
              cases h
              refine ⟨?_, ?_, ?_⟩
              · intro m hm
                have hmn : m = n := by simpa using hm.symm
                subst hmn
                exact ⟨⟨m, by simp [VTask.targets], Reaches.refl m⟩, hlook⟩
              · intro m hm; simp at hm
              · intro m hm; simp at hm
            · rename_i d hlook
              split at h
              · rename_i h3
                cases h
                refine ⟨?_, ?_, ?_⟩
                · intro m hm; simp at hm
                · intro m hm
                  have hmn : m = n := by simpa using hm.symm
                  subst hmn
                  exact ⟨⟨m, by simp [VTask.targets], Reaches.refl m⟩, h3⟩
                · intro m hm; simp at hm
              · rename_i h3
                split at h
                · simp at h
                · rename_i e0 hrec
                  cases h
                  have HE := (ih (VTask.many d.dependencies)
                    (RState.mk s.visited (n :: s.temp) s.order)).2 e hrec
                  refine ⟨?_, ?_, ?_⟩
                  · intro m hm
                    obtain ⟨⟨x, hx, hr⟩, hnone⟩ := HE.1 m hm
                    simp only [VTask.targets] at hx
                    exact ⟨⟨n, by simp [VTask.targets],
                      Reaches.step x hlook hx hr⟩, hnone⟩
                  · intro m hm
                    obtain ⟨⟨x, hx, hr⟩, hdis⟩ := HE.2.1 m hm
                    simp only [VTask.targets] at hx
                    exact ⟨⟨n, by simp [VTask.targets],
                      Reaches.step x hlook hx hr⟩, hdis⟩
                  · intro m hm hchain
                    refine HE.2.2 m hm ?_
                    intro x hx y hy
                    simp only [VTask.targets] at hy
                    rcases List.mem_cons.mp hx with hx | hx
                    · subst hx
                      exact ⟨d, y, hlook, hy, Reaches.refl y⟩
                    · obtain ⟨d0, dep0, h01, h02, h03⟩ :=
                        hchain x hx n (by simp [VTask.targets])
                      exact ⟨d0, dep0, h01, h02, h03.snoc hlook hy⟩
                · simp at h
    | VTask.many [] =>
      constructor
      · intro s1 h
        simp only [visitAux] at h
        cases h
        exact { tempEq := rfl, orderExt := ⟨[], by simp⟩,
                visMono := fun m hm => hm,
                targVis := by intro x hx; simp [VTask.targets] at hx,
                newReach := fun m hm => Or.inl hm,
                tempFrozen := fun m _ hm => hm,
                inv := fun hI => hI }
      · intro e h
        simp [visitAux] at h
    | VTask.many (d :: ds) =>
      constructor
      · intro s1 h
        simp only [visitAux] at h
        split at h
        · simp at h
        · simp at h
        · rename_i s2 heq1
          have H1 := (ih (VTask.one d) s).1 s2 heq1
          have H2 := (ih (VTask.many ds) s2).1 s1 h
          refine { tempEq := H2.tempEq.trans H1.tempEq, orderExt := ?_,
                   visMono := ?_, targVis := ?_, newReach := ?_,
                   tempFrozen := ?_, inv := fun hI => H2.inv (H1.inv hI) }
          · obtain ⟨l1, hl1⟩ := H1.orderExt
            obtain ⟨l2, hl2⟩ := H2.orderExt
            exact ⟨l1 ++ l2, by rw [hl2, hl1, List.append_assoc]⟩
          · intro m hm
            exact H2.visMono m (H1.visMono m hm)
          · intro x hx
            simp only [VTask.targets, List.mem_cons] at hx
            rcases hx with hx | hx
            · subst hx
              exact H2.visMono x (H1.targVis x (by simp [VTask.targets]))
            · exact H2.targVis x hx
          · intro m hm
            rcases H2.newReach m hm with hm2 | ⟨x, hx, hr⟩
            · rcases H1.newReach m hm2 with hm3 | ⟨x, hx, hr⟩
              · exact Or.inl hm3
              · simp only [VTask.targets, List.mem_singleton] at hx
                subst hx
                exact Or.inr ⟨x, by simp [VTask.targets], hr⟩
            · simp only [VTask.targets] at hx
              exact Or.inr ⟨x, by simp [VTask.targets, hx], hr⟩
          · intro m hmt hm
            have hmt2 : m ∈ s2.temp := by rw [H1.tempEq]; exact hmt
            exact H1.tempFrozen m hmt (H2.tempFrozen m hmt2 hm)
      · intro e h
        simp only [visitAux] at h
        split at h
        · simp at h
        · rename_i e0 heq1
          cases h
          have HE := (ih (VTask.one d) s).2 e heq1
          refine ⟨?_, ?_, ?_⟩
          · intro m hm
            obtain ⟨⟨x, hx, hr⟩, hnone⟩ := HE.1 m hm
            simp only [VTask.targets, List.mem_singleton] at hx
            subst hx
            exact ⟨⟨x, by simp [VTask.targets], hr⟩, hnone⟩
          · intro m hm
            obtain ⟨⟨x, hx, hr⟩, hdis⟩ := HE.2.1 m hm
            simp only [VTask.targets, List.mem_singleton] at hx
            subst hx
            exact ⟨⟨x, by simp [VTask.targets], hr⟩, hdis⟩
          · intro m hm hchain
            refine HE.2.2 m hm ?_
            intro x hx y hy
            simp only [VTask.targets, List.mem_singleton] at hy
            subst hy
            exact hchain x hx y (by simp [VTask.targets])
        · rename_i s2 heq1
          have H1 := (ih (VTask.one d) s).1 s2 heq1
          have HE := (ih (VTask.many ds) s2).2 e h
          refine ⟨?_, ?_, ?_⟩
          · intro m hm
            obtain ⟨⟨x, hx, hr⟩, hnone⟩ := HE.1 m hm
            simp only [VTask.targets] at hx
            exact ⟨⟨x, by simp [VTask.targets, hx], hr⟩, hnone⟩
          · intro m hm
            obtain ⟨⟨x, hx, hr⟩, hdis⟩ := HE.2.1 m hm
            simp only [VTask.targets] at hx
            exact ⟨⟨x, by simp [VTask.targets, hx], hr⟩, hdis⟩
          · intro m hm hchain
            refine HE.2.2 m hm ?_
            intro x hx y hy
            simp only [VTask.targets] at hy
            rw [H1.tempEq] at hx
            exact hchain x hx y (by simp [VTask.targets, hy])

/-! ## Postconditions of the seeding loop (lines 214-226) -/

/-- What a successful pass of the seeding loop guarantees. -/
structure LoopOk (cat : List (String × PluginDesc)) (dis : List String)
    (en : List String) (s s1 : RState) : Prop where
  tempEq : s1.temp = s.temp
  orderExt : ∃ l, s1.order = s.order ++ l
  visMono : ∀ m ∈ s.visited, m ∈ s1.visited
  rootsVis : ∀ r ∈ en, (lookupDesc cat r).isSome → r ∈ s1.visited
  newReach : ∀ m ∈ s1.visited, m ∈ s.visited ∨
    ∃ r ∈ en, (lookupDesc cat r).isSome ∧ Reaches cat r m
  inv : Inv cat dis s → Inv cat dis s1

theorem resolveLoop_ok (cat : List (String × PluginDesc)) (dis : List String)
    (fuel : Nat) :
    ∀ (en : List String) (s s1 : RState),
      resolveLoop cat dis fuel en s = RRes.ok s1 →
      LoopOk cat dis en s s1 := by
  intro en
  induction en with
  | nil =>
    intro s s1 h
    simp only [resolveLoop] at h
    cases h
    exact { tempEq := rfl, orderExt := ⟨[], by simp⟩,
            visMono := fun m hm => hm,
            rootsVis := by intro r hr; simp at hr,
            newReach := fun m hm => Or.inl hm,
            inv := fun hI => hI }
  | cons e es ihe =>
    intro s s1 h
    simp only [resolveLoop] at h
    split at h
    · rename_i hnone
      have H := ihe s s1 h
      refine { tempEq := H.tempEq, orderExt := H.orderExt,
               visMono := H.visMono, rootsVis := ?_, newReach := ?_,
               inv := H.inv }
      · intro r hr hsome
        rcases List.mem_cons.mp hr with hr | hr
        · subst hr
          rw [Option.isNone_iff_eq_none] at hnone
          rw [hnone] at hsome
          simp at hsome
        · exact H.rootsVis r hr hsome
      · intro m hm
        rcases H.newReach m hm with hm | ⟨r, hr, hsome, hre⟩
        · exact Or.inl hm
        · exact Or.inr ⟨r, List.mem_cons_of_mem e hr, hsome, hre⟩
    · rename_i hnn
      split at h
      · rename_i hvis
        have H := ihe s s1 h
        refine { tempEq := H.tempEq, orderExt := H.orderExt,
                 visMono := H.visMono, rootsVis := ?_, newReach := ?_,
                 inv := H.inv }
        · intro r hr hsome
          rcases List.mem_cons.mp hr with hr | hr
          · subst hr
            exact H.visMono r hvis
          · exact H.rootsVis r hr hsome
        · intro m hm
          rcases H.newReach m hm with hm | ⟨r, hr, hsome, hre⟩
          · exact Or.inl hm
          · exact Or.inr ⟨r, List.mem_cons_of_mem e hr, hsome, hre⟩
      · rename_i hvis
        split at h
        · simp at h
        · simp at h
        · rename_i s2 hv
          have hsome : (lookupDesc cat e).isSome := by
            cases hl : lookupDesc cat e
            · rw [hl] at hnn; simp at hnn
            · simp
          have HV := (visitAux_post cat dis fuel (VTask.one e) s).1 s2 hv
          have H := ihe s2 s1 h
          refine { tempEq := H.tempEq.trans HV.tempEq, orderExt := ?_,
                   visMono := ?_, rootsVis := ?_, newReach := ?_,
                   inv := fun hI => H.inv (HV.inv hI) }
          · obtain ⟨l1, hl1⟩ := HV.orderExt
            obtain ⟨l2, hl2⟩ := H.orderExt
            exact ⟨l1 ++ l2, by rw [hl2, hl1, List.append_assoc]⟩
          · intro m hm
            exact H.visMono m (HV.visMono m hm)
          · intro r hr hs
            rcases List.mem_cons.mp hr with hr | hr
            · subst hr
              exact H.visMono r (HV.targVis r (by simp [VTask.targets]))
            · exact H.rootsVis r hr hs
          · intro m hm
            rcases H.newReach m hm with hm2 | ⟨r, hr, hs, hre⟩
            · rcases HV.newReach m hm2 with hm3 | ⟨x, hx, hre⟩
              · exact Or.inl hm3
              · simp only [VTask.targets, List.mem_singleton] at hx
                subst hx
                exact Or.inr ⟨x, List.mem_cons_self x es, hsome, hre⟩
            · exact Or.inr ⟨r, List.mem_cons_of_mem e hr, hs, hre⟩

theorem resolveLoop_err (cat : List (String × PluginDesc)) (dis : List String)
    (fuel : Nat) :
    ∀ (en : List String) (s : RState) (e : RErr),
      resolveLoop cat dis fuel en s = RRes.err e →
      (∀ m, e = RErr.unknown m →
        (∃ r ∈ en, (lookupDesc cat r).isSome ∧ Reaches cat r m) ∧
        lookupDesc cat m = Option.none) ∧
      (∀ m, e = RErr.disabled m →
        (∃ r ∈ en, (lookupDesc cat r).isSome ∧ Reaches cat r m) ∧ m ∈ dis) ∧
      (∀ m, e = RErr.circular m → s.temp = [] → ReachesP cat m m) := by
  intro en
  induction en with
  | nil =>
    intro s e h
    simp [resolveLoop] at h
  | cons r es ihe =>
    intro s e h
    simp only [resolveLoop] at h
    split at h
    · have H := ihe s e h
      refine ⟨?_, ?_, H.2.2⟩
      · intro m hm
        obtain ⟨⟨r0, hr0, hs0, hre⟩, hnone⟩ := H.1 m hm
        exact ⟨⟨r0, List.mem_cons_of_mem r hr0, hs0, hre⟩, hnone⟩
      · intro m hm
        obtain ⟨⟨r0, hr0, hs0, hre⟩, hdis⟩ := H.2.1 m hm
        exact ⟨⟨r0, List.mem_cons_of_mem r hr0, hs0, hre⟩, hdis⟩
    · rename_i hnn
      split at h
      · have H := ihe s e h
        refine ⟨?_, ?_, H.2.2⟩
        · intro m hm
          obtain ⟨⟨r0, hr0, hs0, hre⟩, hnone⟩ := H.1 m hm
          exact ⟨⟨r0, List.mem_cons_of_mem r hr0, hs0, hre⟩, hnone⟩
        · intro m hm
          obtain ⟨⟨r0, hr0, hs0, hre⟩, hdis⟩ := H.2.1 m hm
          exact ⟨⟨r0, List.mem_cons_of_mem r hr0, hs0, hre⟩, hdis⟩
      · rename_i hvis
        have hsome : (lookupDesc cat r).isSome := by
          cases hl : lookupDesc cat r
          · rw [hl] at hnn; simp at hnn
          · simp
        split at h
        · simp at h
        · rename_i e0 hv
          cases h
          have HE := (visitAux_post cat dis fuel (VTask.one r) s).2 e hv
          refine ⟨?_, ?_, ?_⟩
          · intro m hm
            obtain ⟨⟨x, hx, hre⟩, hnone⟩ := HE.1 m hm
            simp only [VTask.targets, List.mem_singleton] at hx
            subst hx
            exact ⟨⟨x, List.mem_cons_self x es, hsome, hre⟩, hnone⟩
          · intro m hm
            obtain ⟨⟨x, hx, hre⟩, hdis⟩ := HE.2.1 m hm
            simp only [VTask.targets, List.mem_singleton] at hx
            subst hx
            exact ⟨⟨x, List.mem_cons_self x es, hsome, hre⟩, hdis⟩
          · intro m hm htemp
            refine HE.2.2 m hm ?_
            intro x hx
            rw [htemp] at hx
            simp at hx
        · rename_i s2 hv
          have HV := (visitAux_post cat dis fuel (VTask.one r) s).1 s2 hv
          have H := ihe s2 e h
          refine ⟨?_, ?_, ?_⟩
          · intro m hm
            obtain ⟨⟨r0, hr0, hs0, hre⟩, hnone⟩ := H.1 m hm
            exact ⟨⟨r0, List.mem_cons_of_mem r hr0, hs0, hre⟩, hnone⟩
          · intro m hm
            obtain ⟨⟨r0, hr0, hs0, hre⟩, hdis⟩ := H.2.1 m hm
            exact ⟨⟨r0, List.mem_cons_of_mem r hr0, hs0, hre⟩, hdis⟩
          · intro m hm htemp
            refine H.2.2 m hm ?_
            rw [HV.tempEq, htemp]

/-- Everything a successful resolution run from the empty initial state
guarantees about the loading order. -/
theorem resolve_ok_main {cat : List (String × PluginDesc)}
    {dis en : List String} {fuel : Nat} {s1 : RState}
    (h : resolveLoop cat dis fuel en (RState.mk [] [] []) = RRes.ok s1) :
    s1.order.Nodup ∧
    (∀ n, n ∈ s1.order ↔
      ∃ r ∈ en, (lookupDesc cat r).isSome ∧ Reaches cat r n) ∧
    DepsClosed cat s1.order ∧
    (∀ n ∈ s1.order, (lookupDesc cat n).isSome) ∧
    (∀ n ∈ s1.order, n ∉ dis) := by
  have H := resolveLoop_ok cat dis fuel en (RState.mk [] [] []) s1 h
  have hI := H.inv (Inv.initial cat dis)
  refine ⟨hI.nodup, ?_, hI.closed, hI.inCat, hI.notDis⟩
  intro n
  constructor
  · intro hn
    have hv := (hI.memEquiv n).mpr hn
    rcases H.newReach n hv with hm | hx
    · simp at hm
    · exact hx
  · rintro ⟨r, hr, hs, hre⟩
    have hrv := H.rootsVis r hr hs
    have hro := (hI.memEquiv r).mp hrv
    exact (reaches_index_le hI.closed hre hro).1

/-! ## Inversion of the top-level function -/

theorem load_plugins_done_inv {cfg : List (String × Bool)}
    {env : List String} {dir : List RawPlugin} {act : String → ActOutcome}
    {fuel : Nat} {ret att fl : List String}
    (h : load_plugins cfg env dir act fuel = LPRes.done ret att fl) :
    ∃ s1, resolveLoop (buildCatalog dir) (configPolicy cfg env).2 fuel
        (configPolicy cfg env).1 (RState.mk [] [] []) = RRes.ok s1 ∧
      ret = s1.order ∧ att = (runActivation act s1.order).1 ∧
      fl = (runActivation act s1.order).2 := by
  unfold load_plugins at h
  split at h
  · simp at h
  · simp at h
  · rename_i s1 heq
    cases h
    exact ⟨s1, heq, rfl, rfl, rfl⟩

theorem load_plugins_err_inv {cfg : List (String × Bool)}
    {env : List String} {dir : List RawPlugin} {act : String → ActOutcome}
    {fuel : Nat} {e : RErr}
    (h : resolveLoop (buildCatalog dir) (configPolicy cfg env).2 fuel
      (configPolicy cfg env).1 (RState.mk [] [] []) = RRes.err e) :
    load_plugins cfg env dir act fuel = LPRes.failed := by
  unfold load_plugins
  rw [h]

/-! ## Resolution can never succeed past a blocking name -/

theorem resolve_cycle_fails {cat : List (String × PluginDesc)}
    {dis en : List String} {fuel : Nat} {s1 : RState} {r c : String}
    (hr : r ∈ en) (hs : (lookupDesc cat r).isSome) (hrc : Reaches cat r c)
    (hcyc : ReachesP cat c c)
    (h : resolveLoop cat dis fuel en (RState.mk [] [] []) = RRes.ok s1) :
    False := by
  obtain ⟨_, hmem, hclosed, _, _⟩ := resolve_ok_main h
  exact no_cycle_in_order hclosed hcyc ((hmem c).mpr ⟨r, hr, hs, hrc⟩)

theorem resolve_unknown_fails {cat : List (String × PluginDesc)}
    {dis en : List String} {fuel : Nat} {s1 : RState} {r n : String}
    (hr : r ∈ en) (hs : (lookupDesc cat r).isSome) (hrn : Reaches cat r n)
    (hnone : lookupDesc cat n = Option.none)
    (h : resolveLoop cat dis fuel en (RState.mk [] [] []) = RRes.ok s1) :
    False := by
  obtain ⟨_, hmem, _, hcat, _⟩ := resolve_ok_main h
  have hn := hcat n ((hmem n).mpr ⟨r, hr, hs, hrn⟩)
  rw [hnone] at hn
  simp at hn

theorem resolve_disabled_fails {cat : List (String × PluginDesc)}
    {dis en : List String} {fuel : Nat} {s1 : RState} {r n : String}
    (hr : r ∈ en) (hs : (lookupDesc cat r).isSome) (hrn : Reaches cat r n)
    (hdis : n ∈ dis)
    (h : resolveLoop cat dis fuel en (RState.mk [] [] []) = RRes.ok s1) :
    False := by
  obtain ⟨_, hmem, _, _, hnd⟩ := resolve_ok_main h
  exact hnd n ((hmem n).mpr ⟨r, hr, hs, hrn⟩) hdis

/-! ## The claims -/

/-- C1: for every plugin catalog and enabled set on which resolution
completes without error, the loading order computed by load_plugins
contains each plugin name at most once, consists exactly of the plugin
names in the transitive dependency closure (within the catalog) of the
catalog-present enabled names, and every declared dependency of the plugin
at position i appears at some position strictly smaller than i. -/
theorem loading_order_sound (cfg : List (String × Bool)) (env : List String)
    (dir : List RawPlugin) (act : String → ActOutcome) (fuel : Nat)
    (ret att fl : List String)
    (h : load_plugins cfg env dir act fuel = LPRes.done ret att fl) :
    ret.Nodup ∧
    (∀ n, n ∈ ret ↔ ∃ r ∈ (configPolicy cfg env).1,
      (lookupDesc (buildCatalog dir) r).isSome ∧
      Reaches (buildCatalog dir) r n) ∧
    DepsClosed (buildCatalog dir) ret := by
  obtain ⟨s1, hres, hret, _, _⟩ := load_plugins_done_inv h
  subst hret
  obtain ⟨h1, h2, h3, _, _⟩ := resolve_ok_main hres
  exact ⟨h1, h2, h3⟩

/-- Witness for C1: a concrete two-plugin run where a depends on b. -/
theorem loading_order_sound_witness :
    (load_plugins [("a", true)] []
      [RawPlugin.mk "a" true true true true true ["b"],
       RawPlugin.mk "b" true true true true true []]
      (fun _ => ActOutcome.ok) 4 =
      LPRes.done ["b", "a"] ["b", "a"] ["b", "a"]) ∧
    (["b", "a"].Nodup ∧
     (∀ n, n ∈ ["b", "a"] ↔ ∃ r ∈ (configPolicy [("a", true)] []).1,
       (lookupDesc (buildCatalog
         [RawPlugin.mk "a" true true true true true ["b"],
          RawPlugin.mk "b" true true true true true []]) r).isSome ∧
       Reaches (buildCatalog
         [RawPlugin.mk "a" true true true true true ["b"],
          RawPlugin.mk "b" true true true true true []]) r n) ∧
     DepsClosed (buildCatalog
       [RawPlugin.mk "a" true true true true true ["b"],
        RawPlugin.mk "b" true true true true true []]) ["b", "a"]) :=
  ⟨by decide,
   loading_order_sound [("a", true)] []
     [RawPlugin.mk "a" true true true true true ["b"],
      RawPlugin.mk "b" true true true true true []]
     (fun _ => ActOutcome.ok) 4 ["b", "a"] ["b", "a"] ["b", "a"] (by decide)⟩

/-- C2: the claim says the returned set contains exactly the plugins whose
activation succeeded.  The code instead returns set(loading_order)
(line 253): evaluating the embedding on one enabled plugin whose
init_plugin raises shows the plugin in the returned component even though
its activation failed and is_loaded stayed False (empty flags
component). -/
theorem returned_set_ignores_activation_failures :
    load_plugins [("a", true)] []
      [RawPlugin.mk "a" true true true true true []]
      (fun _ => ActOutcome.initError) 3 = LPRes.done ["a"] ["a"] [] := by
  decide

/-- C3 (amended): whenever a name lying on a dependency cycle is reachable
from a catalog-present enabled root, resolution never succeeds, whatever
the fuel: load_plugins never returns a loaded set, so no truncated order is
produced and no plugin is activated; moreover any circular-dependency error
resolution reports names a plugin lying on a genuine cycle.  The failure is
however not always the circular-dependency error: an unknown or disabled
name encountered first yields its own error instead. -/
theorem cycle_reachable_never_loads (cfg : List (String × Bool))
    (env : List String) (dir : List RawPlugin) (act : String → ActOutcome)
    (fuel : Nat) (ret att fl : List String) (r c : String)
    (hr : r ∈ (configPolicy cfg env).1)
    (hs : (lookupDesc (buildCatalog dir) r).isSome)
    (hrc : Reaches (buildCatalog dir) r c)
    (hcyc : ReachesP (buildCatalog dir) c c) :
    load_plugins cfg env dir act fuel ≠ LPRes.done ret att fl ∧
    (∀ m, resolveLoop (buildCatalog dir) (configPolicy cfg env).2 fuel
        (configPolicy cfg env).1 (RState.mk [] [] []) =
        RRes.err (RErr.circular m) → ReachesP (buildCatalog dir) m m) := by
  constructor
  · intro hdone
    obtain ⟨s1, hres, _, _, _⟩ := load_plugins_done_inv hdone
    exact resolve_cycle_fails hr hs hrc hcyc hres
  · intro m hm
    exact (resolveLoop_err (buildCatalog dir) (configPolicy cfg env).2 fuel
      (configPolicy cfg env).1 (RState.mk [] [] []) _ hm).2.2 m rfl rfl

/-- Witness for C3 on a concrete self-cycle: a depends on a. -/
theorem cycle_reachable_never_loads_witness :
    load_plugins [("a", true)] []
      [RawPlugin.mk "a" true true true true true ["a"]]
      (fun _ => ActOutcome.ok) 5 ≠ LPRes.done [] [] [] :=
  (cycle_reachable_never_loads [("a", true)] []
    [RawPlugin.mk "a" true true true true true ["a"]]
    (fun _ => ActOutcome.ok) 5 [] [] [] "a" "a"
    (by decide) (by decide) (Reaches.refl "a")
    ⟨PluginDesc.mk ["a"], "a", by decide, by decide, Reaches.refl "a"⟩).1

/-- Counterexample to C3 as stated: the cycle c -> c is reachable from the
enabled plugin a (whose dependencies are b and c), yet resolution reports
the required-but-disabled error for b, never a circular-dependency
error. -/
theorem cycle_error_not_always_circular :
    (Reaches (buildCatalog
       [RawPlugin.mk "a" true true true true true ["b", "c"],
        RawPlugin.mk "b" true true true true true [],
        RawPlugin.mk "c" true true true true true ["c"]]) "a" "c" ∧
     ReachesP (buildCatalog
       [RawPlugin.mk "a" true true true true true ["b", "c"],
        RawPlugin.mk "b" true true true true true [],
        RawPlugin.mk "c" true true true true true ["c"]]) "c" "c" ∧
     "a" ∈ (configPolicy [("a", true), ("b", false)] []).1) ∧
    resolveLoop (buildCatalog
       [RawPlugin.mk "a" true true true true true ["b", "c"],
        RawPlugin.mk "b" true true true true true [],
        RawPlugin.mk "c" true true true true true ["c"]])
      (configPolicy [("a", true), ("b", false)] []).2 6
      (configPolicy [("a", true), ("b", false)] []).1 (RState.mk [] [] []) =
      RRes.err (RErr.disabled "b") ∧
    (∀ m, resolveLoop (buildCatalog
       [RawPlugin.mk "a" true true true true true ["b", "c"],
        RawPlugin.mk "b" true true true true true [],
        RawPlugin.mk "c" true true true true true ["c"]])
      (configPolicy [("a", true), ("b", false)] []).2 6
      (configPolicy [("a", true), ("b", false)] []).1 (RState.mk [] [] []) ≠
      RRes.err (RErr.circular m)) := by
  refine ⟨⟨?_, ?_, by decide⟩, by decide, ?_⟩
  · exact @Reaches.step
      (buildCatalog
        [RawPlugin.mk "a" true true true true true ["b", "c"],
         RawPlugin.mk "b" true true true true true [],
         RawPlugin.mk "c" true true true true true ["c"]])
      "a" "c" (PluginDesc.mk ["b", "c"]) "c"
      (by decide) (by decide) (Reaches.refl "c")
  · exact ⟨PluginDesc.mk ["c"], "c", by decide, by decide, Reaches.refl "c"⟩
  · intro m hm
    rw [show resolveLoop (buildCatalog
        [RawPlugin.mk "a" true true true true true ["b", "c"],
         RawPlugin.mk "b" true true true true true [],
         RawPlugin.mk "c" true true true true true ["c"]])
      (configPolicy [("a", true), ("b", false)] []).2 6
      (configPolicy [("a", true), ("b", false)] []).1 (RState.mk [] [] []) =
      RRes.err (RErr.disabled "b") from by decide] at hm
    simp at hm

/-- C4 (amended): a catalog-absent name that is reachable from a
catalog-present enabled root — in particular any such name pulled in as a
dependency — prevents resolution from ever succeeding (the raised error is
UnknownPlugin unless another resolution error occurs first); but a directly
enabled name with no catalog entry is skipped by the seeding loop with only
an error log, and resolution continues without it. -/
theorem unknown_dependency_blocks_resolution :
    (∀ (cfg : List (String × Bool)) (env : List String)
      (dir : List RawPlugin) (act : String → ActOutcome) (fuel : Nat)
      (ret att fl : List String) (r n : String),
      r ∈ (configPolicy cfg env).1 →
      (lookupDesc (buildCatalog dir) r).isSome →
      Reaches (buildCatalog dir) r n →
      lookupDesc (buildCatalog dir) n = Option.none →
      load_plugins cfg env dir act fuel ≠ LPRes.done ret att fl) ∧
    (∀ (cat : List (String × PluginDesc)) (dis : List String) (fuel : Nat)
      (r : String) (es : List String) (s : RState),
      lookupDesc cat r = Option.none →
      resolveLoop cat dis fuel (r :: es) s = resolveLoop cat dis fuel es s) := by
  constructor
  · intro cfg env dir act fuel ret att fl r n hr hs hrn hnone hdone
    obtain ⟨s1, hres, _, _, _⟩ := load_plugins_done_inv hdone
    exact resolve_unknown_fails hr hs hrn hnone hres
  · intro cat dis fuel r es s hnone
    simp [resolveLoop, hnone]

/-- Witness for C4: plugin a declares the missing dependency z, so
resolution never succeeds; and the catalog-absent enabled name g is skipped
by the seeding loop. -/
theorem unknown_dependency_blocks_resolution_witness :
    (load_plugins [("a", true)] []
      [RawPlugin.mk "a" true true true true true ["z"]]
      (fun _ => ActOutcome.ok) 5 ≠ LPRes.done [] [] []) ∧
    resolveLoop [] [] 1 ["g"] (RState.mk [] [] []) =
      resolveLoop [] [] 1 [] (RState.mk [] [] []) :=
  ⟨unknown_dependency_blocks_resolution.1 [("a", true)] []
     [RawPlugin.mk "a" true true true true true ["z"]]
     (fun _ => ActOutcome.ok) 5 [] [] [] "a" "z" (by decide) (by decide)
     (@Reaches.step
       (buildCatalog [RawPlugin.mk "a" true true true true true ["z"]])
       "a" "z" (PluginDesc.mk ["z"]) "z" (by decide) (by decide)
       (Reaches.refl "z"))
     (by decide),
   unknown_dependency_blocks_resolution.2 [] [] 1 "g" []
     (RState.mk [] [] []) (by decide)⟩

/-- Counterexample to C4 as stated: the enabled name a has no catalog entry
(the plugin directory is empty), yet resolution does not fail — the run
completes and returns an empty loaded set. -/
theorem unknown_enabled_name_skipped :
    ("a" ∈ (configPolicy [("a", true)] []).1) ∧
    lookupDesc (buildCatalog []) "a" = Option.none ∧
    load_plugins [("a", true)] [] [] (fun _ => ActOutcome.ok) 3 =
      LPRes.done [] [] [] := by
  decide

/-- C5 (amended): a name that is in the disabled set and reachable from a
catalog-present enabled root — in particular a disabled dependency, or a
directly requested disabled name that has a catalog entry — prevents
resolution from ever succeeding, so no loaded set is produced (the raised
error is RequiredButDisabled unless another resolution error occurs first,
e.g. UnknownPlugin when the disabled name lacks a catalog entry); but a
disabled name that is only directly requested and has no catalog entry is
skipped by the seeding loop and resolution continues without it. -/
theorem disabled_reachable_never_loads (cfg : List (String × Bool))
    (env : List String) (dir : List RawPlugin) (act : String → ActOutcome)
    (fuel : Nat) (ret att fl : List String) (r n : String)
    (hr : r ∈ (configPolicy cfg env).1)
    (hs : (lookupDesc (buildCatalog dir) r).isSome)
    (hrn : Reaches (buildCatalog dir) r n)
    (hdis : n ∈ (configPolicy cfg env).2) :
    load_plugins cfg env dir act fuel ≠ LPRes.done ret att fl := by
  intro hdone
  obtain ⟨s1, hres, _, _, _⟩ := load_plugins_done_inv hdone
  exact resolve_disabled_fails hr hs hrn hdis hres

/-- Witness for C5: enabled plugin a depends on b while b is configured
disabled, so the run never produces a loaded set. -/
theorem disabled_reachable_never_loads_witness :
    load_plugins [("a", true), ("b", false)] []
      [RawPlugin.mk "a" true true true true true ["b"],
       RawPlugin.mk "b" true true true true true []]
      (fun _ => ActOutcome.ok) 6 ≠ LPRes.done [] [] [] :=
  disabled_reachable_never_loads [("a", true), ("b", false)] []
    [RawPlugin.mk "a" true true true true true ["b"],
     RawPlugin.mk "b" true true true true true []]
    (fun _ => ActOutcome.ok) 6 [] [] [] "a" "b" (by decide) (by decide)
    (@Reaches.step
      (buildCatalog [RawPlugin.mk "a" true true true true true ["b"],
        RawPlugin.mk "b" true true true true true []])
      "a" "b" (PluginDesc.mk ["b"]) "b" (by decide) (by decide)
      (Reaches.refl "b"))
    (by decide)

/-- Counterexample to C5 as stated: the name a is directly requested (it is
in the enabled set) and is also in the disabled set, yet resolution does
not fail with any error: because a has no catalog entry the seeding loop
skips it and the run completes successfully. -/
theorem disabled_requested_without_descriptor_succeeds :
    ("a" ∈ (configPolicy [("a", true), ("a", false)] []).1) ∧
    ("a" ∈ (configPolicy [("a", true), ("a", false)] []).2) ∧
    load_plugins [("a", true), ("a", false)] [] []
      (fun _ => ActOutcome.ok) 3 = LPRes.done [] [] [] := by
  decide

/-- C6: resolution is all-or-nothing: whenever the resolver raises any
error, load_plugins returns None (LPRes.failed) — no loaded set and no
partial ordering are exposed and the activation loop, whose trace only
exists in the LPRes.done outcome, is never entered. -/
theorem resolution_failure_all_or_nothing (cfg : List (String × Bool))
    (env : List String) (dir : List RawPlugin) (act : String → ActOutcome)
    (fuel : Nat) (e : RErr)
    (h : resolveLoop (buildCatalog dir) (configPolicy cfg env).2 fuel
      (configPolicy cfg env).1 (RState.mk [] [] []) = RRes.err e) :
    load_plugins cfg env dir act fuel = LPRes.failed :=
  load_plugins_err_inv h

/-- Witness for C6 on a concrete self-cycle. -/
theorem resolution_failure_all_or_nothing_witness :
    load_plugins [("a", true)] []
      [RawPlugin.mk "a" true true true true true ["a"]]
      (fun _ => ActOutcome.ok) 5 = LPRes.failed :=
  resolution_failure_all_or_nothing [("a", true)] []
    [RawPlugin.mk "a" true true true true true ["a"]]
    (fun _ => ActOutcome.ok) 5 (RErr.circular "a") (by decide)

/-- C7: every name of the environment override list ends up in the final
enabled set and not in the final disabled set, whatever the base
configuration said about it. -/
theorem override_wins (en dis env : List String) (n : String)
    (h : n ∈ env) :
    n ∈ (applyEnv en dis env).1 ∧ n ∉ (applyEnv en dis env).2 :=
  applyEnv_mem_override h

/-- Witness for C7: the override re-enables the disabled name x. -/
theorem override_wins_witness :
    "x" ∈ (applyEnv [] ["x"] ["x"]).1 ∧ "x" ∉ (applyEnv [] ["x"] ["x"]).2 :=
  override_wins [] ["x"] ["x"] "x" (by decide)

/-- C8 (amended): membership in the constructed policy sets is determined
by the existence of an entry with the corresponding flag, not by entry
order: a name is in the enabled set exactly when some entry enables it and
in the disabled set exactly when some entry disables it, so a name carrying
both flags ends up in both sets and no later-entry-wins resolution takes
place. -/
theorem policy_membership_characterization (cfg : List (String × Bool))
    (n : String) :
    (n ∈ (processConfig cfg).1 ↔ (n, true) ∈ cfg) ∧
    (n ∈ (processConfig cfg).2 ↔ (n, false) ∈ cfg) :=
  processConfig_mem cfg n

/-- Counterexample to C8 as stated: with the configuration listing a as
enabled and then as disabled, the later entry does not win — a is a member
of both constructed sets, not of exactly one. -/
theorem both_flags_yield_both_sets :
    "a" ∈ (processConfig [("a", true), ("a", false)]).1 ∧
    "a" ∈ (processConfig [("a", true), ("a", false)]).2 := by
  decide

/-- C9: the activation loop attempts every plugin of the loading order in
sequence whatever the individual outcomes are, and a name carries the
is_loaded flag exactly when it is in the order and its own activation
succeeded — so one plugin's failure aborts nothing, removes no
earlier-activated plugin from the flagged set and prevents no later plugin
(dependent or not) from being attempted. -/
theorem activation_isolated (act : String → ActOutcome)
    (order : List String) :
    (runActivation act order).1 = order ∧
    (∀ n, n ∈ (runActivation act order).2 ↔
      n ∈ order ∧ act n = ActOutcome.ok) := by
  induction order with
  | nil => exact ⟨rfl, by intro n; simp [runActivation]⟩
  | cons x xs ih =>
    constructor
    · show x :: (runActivation act xs).1 = x :: xs
      rw [ih.1]
    · intro n
      show n ∈ (if act x = ActOutcome.ok
          then x :: (runActivation act xs).2
          else (runActivation act xs).2) ↔ n ∈ x :: xs ∧ act n = ActOutcome.ok
      by_cases h : act x = ActOutcome.ok
      · rw [if_pos h]
        simp only [List.mem_cons, ih.2 n]
        constructor
        · rintro (rfl | ⟨hm, ho⟩)
          · exact ⟨Or.inl rfl, h⟩
          · exact ⟨Or.inr hm, ho⟩
        · rintro ⟨rfl | hm, ho⟩
          · exact Or.inl rfl
          · exact Or.inr ⟨hm, ho⟩
      · rw [if_neg h]
        simp only [List.mem_cons, ih.2 n]
        constructor
        · rintro ⟨hm, ho⟩
          exact ⟨Or.inr hm, ho⟩
        · rintro ⟨rfl | hm, ho⟩
          · exact absurd ho h
          · exact ⟨hm, ho⟩

/-- C10: every name of the set returned by load_plugins has a well-formed
descriptor in the catalog built from the plugin directory; names rejected
as malformed during catalog construction, names never discovered, and names
appearing only in the configuration cannot be returned, because they have
no catalog entry. -/
theorem returned_names_have_descriptors (cfg : List (String × Bool))
    (env : List String) (dir : List RawPlugin) (act : String → ActOutcome)
    (fuel : Nat) (ret att fl : List String)
    (h : load_plugins cfg env dir act fuel = LPRes.done ret att fl) :
    ∀ n ∈ ret, (lookupDesc (buildCatalog dir) n).isSome := by
  obtain ⟨s1, hres, hret, _, _⟩ := load_plugins_done_inv h
  subst hret
  obtain ⟨_, _, _, hcat, _⟩ := resolve_ok_main hres
  exact hcat

/-- Witness for C10 on a concrete one-plugin run. -/
theorem returned_names_have_descriptors_witness :
    (lookupDesc (buildCatalog
      [RawPlugin.mk "p" true true true true true []]) "p").isSome :=
  returned_names_have_descriptors [("p", true)] []
    [RawPlugin.mk "p" true true true true true []]
    (fun _ => ActOutcome.ok) 3 ["p"] ["p"] ["p"] (by decide) "p" (by decide)

end Plugo
